import Mathlib

/-!
# Verification of the order-book materializer and trade reconstructor

Shallow embedding of the two core functions of the repository,
`HyperLiquidAPI.convertOrderBook` and `HyperLiquidAPI.processCompletedTrades`
(file `lib/hyperliquid-api.ts`), together with proofs of the spec's claims
about them.

Modelling conventions:
* JavaScript numbers obtained by `parseFloat` of the provider's decimal
  strings are modelled as exact rationals (`ℚ`); millisecond timestamps are
  `ℕ`.
* `Array.prototype.sort` is stable (ES2019), so each `sort(comparator)`
  call is modelled by `List.insertionSort` with the corresponding total
  preorder, which is the stable sort for that comparator.
* `new Date(t).toLocaleString()` followed by `new Date(s).getTime()` (used
  as the key of the final sort of completed trades) renders a millisecond
  timestamp at second precision and re-parses it, yielding the timestamp
  truncated to a whole second; it is modelled by `localeRoundTripMs`.
* A JavaScript `Map` iterates in key-insertion order; grouping fills by
  coin is therefore modelled by the list of coins in order of first
  appearance (`coinsInOrder`) together with order-preserving `filter`.
-/

namespace HL

/-- Side code of a fill: `'B'` = Buy (long), `'A'` = Sell (short)
(`HyperLiquidUserFill.side` in the source). -/
inductive USide where
  | B
  | A
deriving DecidableEq, Repr

/-- Direction of a reconstructed position: `'long' | 'short'` in the source. -/
inductive TDirection where
  | long
  | short
deriving DecidableEq, Repr

/-- One fill event, `interface HyperLiquidUserFill` of the source.
`sz` and `closedPnl` are the rationals denoted by the source's
`parseFloat(fill.sz)` and `parseFloat(fill.closedPnl || '0')`;
the remaining fields keep their source types (`px`, `startPosition`,
`dir`, `hash`, `fee` are opaque strings, `oid` a number, `crossed` a
boolean) and are never read by the reconstructor. -/
structure HyperLiquidUserFill where
  coin : String
  px : String
  sz : ℚ
  side : USide
  time : ℕ
  startPosition : String
  dir : String
  closedPnl : ℚ
  hash : String
  oid : ℕ
  crossed : Bool
  fee : String
deriving DecidableEq, Repr

/-- One emitted completed trade (the object pushed into `completedTrades`
in the source).  The source stores `openingTime` as the locale string
`new Date(openMs).toLocaleString()` and `duration` as the string
"<hours>h <minutes>m" built from `durationMs`; we keep the underlying numbers:
`openMs` is the millisecond value rendered into `openingTime`,
`closeMs` the closing fill's `time`, and
`durationMs = fill.time - openTime` the value formatted into `duration`. -/
structure CompletedTrade where
  coin : String
  direction : TDirection
  openMs : ℕ
  closeMs : ℕ
  durationMs : ℕ
  realizedPnL : ℚ
deriving DecidableEq, Repr

/-- The per-coin mutable state of the reconstruction scan
(`positionSize`, `openTime`, `totalPnL`, `positionDirection` in the
source, lines 660–663). -/
structure PosAcc where
  positionSize : ℚ
  openTime : Option ℕ
  totalPnL : ℚ
  positionDirection : Option TDirection
deriving DecidableEq, Repr

/-- Initial accumulator: `positionSize = 0`, `openTime = null`,
`totalPnL = 0`, `positionDirection = null`. -/
def PosAcc.init : PosAcc := ⟨0, none, 0, none⟩

/-- The closing tolerance `0.0001` of the source
(`Math.abs(positionSize) < 0.0001`). -/
def closeEps : ℚ := 1 / 10000

/-- Processing of one fill by the body of the `coinFills.forEach`
loop (source lines 665–720): returns the updated accumulator and the
completed trade pushed by this iteration, if any.

Steps, in source order: resolve `positionDirection` if unset (from
`isLong = (fill.side === 'B')`); add `+sz`/`-sz` to `positionSize`;
set `openTime = fill.time` if it is unset and the new `positionSize`
is (exactly) non-zero; add `closedPnl` to `totalPnL`; if `openTime`
is set and `|positionSize| < 0.0001`, push a completed trade and reset
`openTime`, `totalPnL` and `positionDirection` (but not
`positionSize`). -/
def stepFill (coin : String) (a : PosAcc) (f : HyperLiquidUserFill) :
    PosAcc × Option CompletedTrade :=
  let isLong : Bool := f.side = USide.B
  let direction : TDirection :=
    match a.positionDirection with
    | none => if isLong then .long else .short
    | some d => d
  let pos : ℚ := if isLong then a.positionSize + f.sz else a.positionSize - f.sz
  let openT : Option ℕ :=
    match a.openTime with
    | none => if pos ≠ 0 then some f.time else none
    | some t => some t
  let pnl : ℚ := a.totalPnL + f.closedPnl
  match openT with
  | some t =>
    if |pos| < closeEps then
      (⟨pos, none, 0, none⟩,
        some ⟨coin, direction, t, f.time, f.time - t, pnl⟩)
    else
      (⟨pos, some t, pnl, some direction⟩, none)
  | none => (⟨pos, none, pnl, some direction⟩, none)

/-- The `coinFills.forEach` scan for one coin: thread the accumulator
through the (time-sorted) fills, collecting the emitted trades in
emission order. -/
def scanFills (coin : String) (a : PosAcc) :
    List HyperLiquidUserFill → PosAcc × List CompletedTrade
  | [] => (a, [])
  | f :: fs =>
    match stepFill coin a f with
    | (a1, em) =>
      match scanFills coin a1 fs with
      | (a2, ts) => (a2, match em with | some t => t :: ts | none => ts)

/-- Stable ascending sort by fill time:
`coinFills.sort((a, b) => a.time - b.time)` (source line 657). -/
def sortByTime (fs : List HyperLiquidUserFill) : List HyperLiquidUserFill :=
  List.insertionSort (fun f g => f.time ≤ g.time) fs

/-- Keys of the `coinMap` in insertion order: each coin at its first
appearance in the input (`if (!coinMap.has(fill.coin)) coinMap.set(...)`,
source lines 644–647), accumulated over the already-seen coins. -/
def coinsSeen (seen : List String) : List String → List String
  | [] => []
  | c :: cs =>
    if seen.contains c then coinsSeen seen cs
    else c :: coinsSeen (c :: seen) cs

/-- The distinct coins of a fill list in order of first appearance:
the iteration order of the source's `coinMap`. -/
def coinsInOrder (fills : List HyperLiquidUserFill) : List String :=
  coinsSeen [] (fills.map (·.coin))

/-- Second-truncation of a millisecond timestamp: the value of
`new Date(new Date(t).toLocaleString()).getTime()` (the final sort's
key, source line 726) — the locale string carries second precision,
so re-parsing it recovers `t` truncated to a whole second. -/
def localeRoundTripMs (t : ℕ) : ℕ := t / 1000 * 1000

/-- Ordering used by the final
`completedTrades.sort((a, b) => keyOf b - keyOf a)` (source line 726):
descending in the second-truncated opening time; as a stable sort it
keeps equal-key trades in emission order. -/
def tradeLe (a b : CompletedTrade) : Prop :=
  localeRoundTripMs b.openMs ≤ localeRoundTripMs a.openMs

instance : DecidableRel tradeLe := fun a b =>
  inferInstanceAs (Decidable (_ ≤ _))

instance : IsTotal CompletedTrade tradeLe :=
  ⟨fun a b => Nat.le_total (localeRoundTripMs b.openMs) (localeRoundTripMs a.openMs)⟩

instance : IsTrans CompletedTrade tradeLe :=
  ⟨fun _ _ _ h1 h2 => le_trans h2 h1⟩

/-- The reconstructor `HyperLiquidAPI.processCompletedTrades`
(source lines 622–727): group the fills by coin in first-appearance order, sort each coin's
fills ascending by time, scan them with `stepFill` from the empty
accumulator, concatenate the emitted trades in coin order, and sort
the result descending by (second-truncated) opening time.  An empty
input returns the empty list at once (source lines 634–637). -/
def processCompletedTrades (fills : List HyperLiquidUserFill) :
    List CompletedTrade :=
  if fills.isEmpty then []
  else
    List.insertionSort tradeLe
      ((coinsInOrder fills).flatMap fun c =>
        (scanFills c PosAcc.init
          (sortByTime (fills.filter fun f => f.coin = c))).2)

/-- One raw price level, `interface HyperLiquidOrder`; `px` and `sz`
are the rationals denoted by `parseFloat(order.px)` / `parseFloat(order.sz)`. -/
structure HyperLiquidOrder where
  px : ℚ
  sz : ℚ
deriving DecidableEq, Repr

/-- One display row (`interface Order` of the order-book page):
price, size, and cumulative size (`total`). -/
structure DepthRow where
  price : ℚ
  size : ℚ
  total : ℚ
deriving DecidableEq, Repr

/-- An L2 book snapshot, `interface HyperLiquidOrderBook`; the source's
`levels : [HyperLiquidOrder[], HyperLiquidOrder[]]` tuple is split into
the `bids` and `asks` components it is destructured into. -/
structure HyperLiquidOrderBook where
  coin : String
  bids : List HyperLiquidOrder
  asks : List HyperLiquidOrder
  time : ℕ
deriving DecidableEq, Repr

/-- Result of `convertOrderBook`. -/
structure ConvertedBook where
  bids : List DepthRow
  asks : List DepthRow
  midPrice : ℚ
deriving DecidableEq, Repr

/-- The source's inner `formatOrder` helper (defined but applied to no
call site in `convertOrderBook`): a row whose `total` is just the level's
own size. -/
def formatOrder (o : HyperLiquidOrder) : DepthRow :=
  ⟨o.px, o.sz, o.sz⟩

/-- The `formatOrders` closure: map over the levels in provider order
keeping a running total, threading the mutable `runningTotal` (here the
explicit argument `rt`, initially `0`). -/
def formatOrdersFrom (rt : ℚ) : List HyperLiquidOrder → List DepthRow
  | [] => []
  | o :: os => ⟨o.px, o.sz, rt + o.sz⟩ :: formatOrdersFrom (rt + o.sz) os

/-- The source's `formatOrders(orders)` (lines 600–610): `runningTotal`
starts at `0`. -/
def formatOrders (orders : List HyperLiquidOrder) : List DepthRow :=
  formatOrdersFrom 0 orders

/-- The materializer `HyperLiquidAPI.convertOrderBook`
(source lines 591–619).  The
`precision` parameter is accepted (default `3` at the call sites) but,
as in the source, never used.  `midPrice` is
`(bids[0].px + asks[0].px) / 2` when both sides are non-empty and the
plain number `0` otherwise. -/
def convertOrderBook (b : HyperLiquidOrderBook) (precision : ℚ) :
    ConvertedBook :=
  { bids := formatOrders b.bids
    asks := formatOrders b.asks
    midPrice :=
      match b.bids, b.asks with
      | b0 :: _, a0 :: _ => (b0.px + a0.px) / 2
      | _, _ => 0 }

/-! ## Auxiliary spec-side notions -/

/-- Running sums of a list of sizes: entry `i` is the sum of entries
`0` through `i` of the input — the spec's "running sum of the sizes of
levels 0 through i". -/
def runningSums (l : List ℚ) : List ℚ :=
  (List.range l.length).map fun i => ((l.take (i + 1)).sum)

/-- A depth-row list matches a level list when it has one row per level
in order, preserving price and size, with `total` the running sum of
sizes. -/
def depthRowsOk (levels : List HyperLiquidOrder) (rows : List DepthRow) : Prop :=
  rows.map (·.price) = levels.map (·.px) ∧
  rows.map (·.size) = levels.map (·.sz) ∧
  rows.map (·.total) = runningSums (levels.map (·.sz))

/-- A fill with the given reconstruction-relevant fields and opaque
values for every field the reconstructor never reads. -/
def mkFill (coin : String) (sz : ℚ) (side : USide) (time : ℕ) (pnl : ℚ) :
    HyperLiquidUserFill :=
  ⟨coin, "", sz, side, time, "", "", pnl, "", 0, false, ""⟩

/-! ## Order-book lemmas -/

theorem formatOrdersFrom_map_price (rt : ℚ) (os : List HyperLiquidOrder) :
    (formatOrdersFrom rt os).map (·.price) = os.map (·.px) := by
  induction os generalizing rt with
  | nil => rfl
  | cons o os ih => simp [formatOrdersFrom, ih]

theorem formatOrdersFrom_map_size (rt : ℚ) (os : List HyperLiquidOrder) :
    (formatOrdersFrom rt os).map (·.size) = os.map (·.sz) := by
  induction os generalizing rt with
  | nil => rfl
  | cons o os ih => simp [formatOrdersFrom, ih]

theorem formatOrdersFrom_map_total (rt : ℚ) (os : List HyperLiquidOrder) :
    (formatOrdersFrom rt os).map (·.total) =
      (List.range os.length).map
        (fun i => rt + ((os.map (·.sz)).take (i + 1)).sum) := by
  induction os generalizing rt with
  | nil => rfl
  | cons o os ih =>
    simp only [formatOrdersFrom, List.map_cons, List.length_cons,
      List.range_succ_eq_map, List.map_map, ih]
    congr 1
    · simp
    · apply List.map_congr_left
      intro i _
      simp [Function.comp, List.take_succ_cons, add_assoc]

theorem formatOrders_total (os : List HyperLiquidOrder) :
    (formatOrders os).map (·.total) = runningSums (os.map (·.sz)) := by
  simp [formatOrders, formatOrdersFrom_map_total, runningSums]

theorem formatOrders_depthRowsOk (os : List HyperLiquidOrder) :
    depthRowsOk os (formatOrders os) :=
  ⟨formatOrdersFrom_map_price 0 os, formatOrdersFrom_map_size 0 os,
    formatOrders_total os⟩

theorem chain'_formatOrdersFrom (rt : ℚ) (os : List HyperLiquidOrder)
    (h : ∀ o ∈ os, 0 ≤ o.sz) :
    List.Chain' (· ≤ ·) ((formatOrdersFrom rt os).map (·.total)) := by
  induction os generalizing rt with
  | nil => exact List.chain'_nil
  | cons o os ih =>
    cases os with
    | nil => exact List.chain'_singleton _
    | cons o2 os2 =>
      rw [show formatOrdersFrom rt (o :: o2 :: os2) =
          ⟨o.px, o.sz, rt + o.sz⟩ :: formatOrdersFrom (rt + o.sz) (o2 :: os2)
        from rfl, List.map_cons, List.chain'_cons']
      refine ⟨?_, ih (rt + o.sz) (fun x hx => h x (List.mem_cons_of_mem o hx))⟩
      intro y hy
      simp only [formatOrdersFrom, List.map_cons, List.head?_cons,
        Option.mem_def, Option.some.injEq] at hy
      have h2 := h o2 (by simp)
      rw [← hy]
      show rt + o.sz ≤ rt + o.sz + o2.sz
      linarith

/-! ## Claims about the order-book materializer -/

/-- C7: for every book snapshot with both sides non-empty, the
materializer's mid price is the average of the first bid level's and the
first ask level's price. -/
theorem convertOrderBook_midPrice (b : HyperLiquidOrderBook) (p : ℚ)
    (b0 a0 : HyperLiquidOrder) (brest arest : List HyperLiquidOrder)
    (hb : b.bids = b0 :: brest) (ha : b.asks = a0 :: arest) :
    (convertOrderBook b p).midPrice = (b0.px + a0.px) / 2 := by
  simp [convertOrderBook, hb, ha]

/-- The 29.40 / 29.50 snapshot of the spec's mid-price example. -/
def book29 : HyperLiquidOrderBook :=
  ⟨"AVAX", [⟨29.40, 100⟩], [⟨29.50, 100⟩], 0⟩

/-- C7 witness: for bids `[{29.40, 100}]` and asks `[{29.50, 100}]` the
mid price is exactly `29.45`. -/
theorem convertOrderBook_midPrice_witness :
    (convertOrderBook book29 3).midPrice = 29.45 := by
  rw [convertOrderBook_midPrice book29 3 ⟨29.40, 100⟩ ⟨29.50, 100⟩ [] []
    rfl rfl]
  norm_num

/-- A snapshot whose ask side is empty. -/
def bookEmptyAsk : HyperLiquidOrderBook :=
  ⟨"AVAX", [⟨29.40, 100⟩], [], 0⟩

/-- A snapshot with both sides non-empty whose genuine mid price is the
real number `0` (both best prices are zero). -/
def bookZeroPx : HyperLiquidOrderBook :=
  ⟨"AVAX", [⟨0, 1⟩], [⟨0, 1⟩], 0⟩

/-- C8 counterexample: the empty-side sentinel is the plain number `0`,
which is exactly the value the materializer returns for a genuine zero
mid price on a two-sided book — the sentinel is not distinguishable from
a real zero price. -/
theorem convertOrderBook_sentinel_collision :
    (convertOrderBook bookEmptyAsk 3).midPrice = 0 ∧
    (convertOrderBook bookZeroPx 3).midPrice = 0 ∧
    bookZeroPx.bids ≠ [] ∧ bookZeroPx.asks ≠ [] := by
  refine ⟨rfl, by norm_num [convertOrderBook, bookZeroPx], by simp [bookZeroPx],
    by simp [bookZeroPx]⟩

/-- C8 (amended): for every snapshot with at least one empty side the
materializer returns the zero-sentinel mid price `0` without failing; the
sentinel is the plain number `0`, not distinguishable from a genuine zero
mid price. -/
theorem convertOrderBook_empty_side (b : HyperLiquidOrderBook) (p : ℚ)
    (h : b.bids = [] ∨ b.asks = []) :
    (convertOrderBook b p).midPrice = 0 := by
  rcases h with h | h <;>
    · cases hb : b.bids <;> cases ha : b.asks <;>
        simp_all [convertOrderBook]

/-- C8 witness: the sentinel for the empty-ask snapshot is `0`. -/
theorem convertOrderBook_empty_side_witness :
    (convertOrderBook bookEmptyAsk 3).midPrice = 0 :=
  convertOrderBook_empty_side bookEmptyAsk 3 (Or.inr rfl)

/-- C9: for each side of every snapshot the materializer emits one depth
row per input level in provider order, preserving price and size, with
cumulative `total` equal to the running sum of sizes of levels `0`
through `i`; when all sizes on a side are non-negative the cumulative
sizes are non-decreasing outward from the best price. -/
theorem convertOrderBook_depth (b : HyperLiquidOrderBook) (p : ℚ) :
    depthRowsOk b.bids (convertOrderBook b p).bids ∧
    depthRowsOk b.asks (convertOrderBook b p).asks ∧
    ((∀ o ∈ b.bids, 0 ≤ o.sz) →
      List.Chain' (· ≤ ·) ((convertOrderBook b p).bids.map (·.total))) ∧
    ((∀ o ∈ b.asks, 0 ≤ o.sz) →
      List.Chain' (· ≤ ·) ((convertOrderBook b p).asks.map (·.total))) := by
  refine ⟨formatOrders_depthRowsOk b.bids, formatOrders_depthRowsOk b.asks,
    fun h => ?_, fun h => ?_⟩ <;>
    exact chain'_formatOrdersFrom 0 _ h

/-- C9 witness: both monotonicity conclusions evaluated on the concrete
29.40 / 29.50 snapshot. -/
theorem convertOrderBook_depth_witness :
    List.Chain' (· ≤ ·) ((convertOrderBook book29 3).bids.map (·.total)) ∧
    List.Chain' (· ≤ ·) ((convertOrderBook book29 3).asks.map (·.total)) :=
  ⟨(convertOrderBook_depth book29 3).2.2.1
      (by intro o ho; simp [book29] at ho; rw [ho]; norm_num),
    (convertOrderBook_depth book29 3).2.2.2
      (by intro o ho; simp [book29] at ho; rw [ho]; norm_num)⟩

/-! ## Trade-reconstructor lemmas and claims -/

/-- Decides that a scan starting from accumulator `a` never reaches the
emission condition (`openTime` set and `|positionSize| < 0.0001`) at any
fill — i.e. the position never returns to (near-)flat: the "dangling
cycle" of the spec. -/
def neverCloses (coin : String) (a : PosAcc) :
    List HyperLiquidUserFill → Bool
  | [] => true
  | f :: fs =>
    match stepFill coin a f with
    | (a1, none) => neverCloses coin a1 fs
    | (_, some _) => false

theorem scanFills_append (c : String) (a : PosAcc)
    (fs gs : List HyperLiquidUserFill) :
    scanFills c a (fs ++ gs) =
      ((scanFills c (scanFills c a fs).1 gs).1,
        (scanFills c a fs).2 ++ (scanFills c (scanFills c a fs).1 gs).2) := by
  induction fs generalizing a with
  | nil => simp [scanFills]
  | cons f fs ih =>
    simp only [List.cons_append, scanFills]
    rcases hstep : stepFill c a f with ⟨a1, em⟩
    rcases h2 : scanFills c a1 (fs ++ gs) with ⟨a2, ts⟩
    have := ih a1
    rw [h2] at this
    rcases h3 : scanFills c a1 fs with ⟨a3, ts3⟩
    rw [h3] at this
    cases em <;> simp_all

theorem scanFills_nil_of_neverCloses (c : String) (a : PosAcc)
    (fs : List HyperLiquidUserFill) (h : neverCloses c a fs = true) :
    (scanFills c a fs).2 = [] := by
  induction fs generalizing a with
  | nil => rfl
  | cons f fs ih =>
    simp only [scanFills, neverCloses] at h ⊢
    rcases hstep : stepFill c a f with ⟨a1, em⟩
    rw [hstep] at h
    cases em with
    | none => simpa [scanFills, hstep] using ih a1 h
    | some t => simp at h

/-- C5: a trailing run of fills during which the emission condition
never holds — a cycle that never returns to flat, in particular an open
position never closed — contributes no completed trade: the scan of
`fs ++ gs` emits exactly the trades of the scan of `fs`.  (Second
conjunct: the single-fill example — one Buy of size 1 — reconstructs to
zero completed trades.) -/
theorem dangling_position_no_trade :
    (∀ (c : String) (a : PosAcc) (fs gs : List HyperLiquidUserFill),
      neverCloses c (scanFills c a fs).1 gs = true →
        (scanFills c a (fs ++ gs)).2 = (scanFills c a fs).2) ∧
    processCompletedTrades [mkFill "X" 1 .B 0 0] = [] := by
  constructor
  · intro c a fs gs h
    rw [scanFills_append]
    rw [scanFills_nil_of_neverCloses c _ gs h]
    simp
  · norm_num +decide [processCompletedTrades, mkFill, coinsInOrder, coinsSeen,
      sortByTime, List.insertionSort, List.orderedInsert, scanFills, stepFill,
      PosAcc.init, closeEps, tradeLe, localeRoundTripMs, List.filter]

/-- C5 witness: the general part of `dangling_position_no_trade`
instantiated at the spec's single-Buy example. -/
theorem dangling_position_no_trade_witness :
    (scanFills "X" PosAcc.init ([] ++ [mkFill "X" 1 .B 0 0])).2 =
      (scanFills "X" PosAcc.init []).2 :=
  dangling_position_no_trade.1 "X" PosAcc.init [] [mkFill "X" 1 .B 0 0]
    (by norm_num +decide [neverCloses, scanFills, stepFill, PosAcc.init,
      mkFill, closeEps])

/-- The spec's single-round-trip example: one Buy of size 1 at time 0
and one Sell of size 1 at time 1000 carrying `closedPnl = 5`. -/
def c1Fills : List HyperLiquidUserFill :=
  [mkFill "X" 1 .B 0 0, mkFill "X" 1 .A 1000 5]

/-- C1: the single-round-trip input reconstructs to exactly one
completed trade on "X", direction long, opened at 0, closed at 1000,
duration 1000 ms, realized PnL 5. -/
theorem single_round_trip :
    processCompletedTrades c1Fills =
      [{ coin := "X", direction := .long, openMs := 0, closeMs := 1000,
         durationMs := 1000, realizedPnL := 5 }] := by
  norm_num +decide [processCompletedTrades, c1Fills, mkFill, coinsInOrder,
    coinsSeen, sortByTime, List.insertionSort, List.orderedInsert, scanFills,
    stepFill, PosAcc.init, closeEps, tradeLe, localeRoundTripMs, List.filter]

/-- Two complete round-trips on the same coin: close at 1000 (PnL 5),
re-open at 2000, close again at 3000 (PnL 7). -/
def c6Fills : List HyperLiquidUserFill :=
  [mkFill "X" 1 .B 0 0, mkFill "X" 1 .A 1000 5,
   mkFill "X" 2 .B 2000 0, mkFill "X" 2 .A 3000 7]

/-- C6: whenever a fill closes a position (a trade is emitted), the
accumulator comes out with `openTime`, `positionDirection` and `totalPnL`
cleared, so no state leaks into the next cycle; consequently the
two-cycle example yields two independent trades, each carrying exactly
its own cycle's PnL (7 for the later cycle, 5 for the earlier one, most
recent first). -/
theorem emission_resets_accumulator :
    (∀ (c : String) (a : PosAcc) (f : HyperLiquidUserFill)
      (a1 : PosAcc) (t : CompletedTrade), stepFill c a f = (a1, some t) →
        a1.openTime = none ∧ a1.positionDirection = none ∧ a1.totalPnL = 0) ∧
    processCompletedTrades c6Fills =
      [{ coin := "X", direction := .long, openMs := 2000, closeMs := 3000,
         durationMs := 1000, realizedPnL := 7 },
       { coin := "X", direction := .long, openMs := 0, closeMs := 1000,
         durationMs := 1000, realizedPnL := 5 }] := by
  constructor
  · intro c a f a1 t h
    simp only [stepFill] at h
    repeat' split at h
    all_goals simp_all [Prod.mk.injEq]
    all_goals first
      | exact ⟨rfl, rfl, rfl⟩
      | (rw [← h.1]; exact ⟨rfl, rfl, rfl⟩)
  · norm_num +decide [processCompletedTrades, c6Fills, mkFill, coinsInOrder,
      coinsSeen, sortByTime, List.insertionSort, List.orderedInsert, scanFills,
      stepFill, PosAcc.init, closeEps, tradeLe, localeRoundTripMs, List.filter]

/-- A closing step used to witness the reset: a long position of size 1
with `openTime = 0` receives the closing Sell. -/
def openAcc : PosAcc := ⟨1, some 0, 0, some .long⟩

/-- C6 witness: the reset conclusions of `emission_resets_accumulator`
at a concrete closing fill. -/
theorem emission_resets_accumulator_witness :
    (stepFill "X" openAcc (mkFill "X" 1 .A 1000 5)).1.openTime = none ∧
    (stepFill "X" openAcc (mkFill "X" 1 .A 1000 5)).1.positionDirection
      = none ∧
    (stepFill "X" openAcc (mkFill "X" 1 .A 1000 5)).1.totalPnL = 0 := by
  have h := emission_resets_accumulator.1 "X" openAcc
    (mkFill "X" 1 .A 1000 5)
    (stepFill "X" openAcc (mkFill "X" 1 .A 1000 5)).1
    { coin := "X", direction := .long, openMs := 0, closeMs := 1000,
      durationMs := 1000, realizedPnL := 5 }
    (by norm_num +decide [stepFill, openAcc, mkFill, closeEps])
  exact h

/-- An input containing an invalid zero-size fill — a Sell of size 0 at
time 0 carrying `closedPnl = 3` — followed by an ordinary round trip. -/
def c3Fills : List HyperLiquidUserFill :=
  [mkFill "X" 0 .A 0 3, mkFill "X" 1 .B 100 0, mkFill "X" 1 .A 200 5]

/-- C3 counterexample: on an input containing a zero-size fill the
reconstructor does not fail — there is no validation anywhere — but
returns a trade list in which the offending fill has been processed:
its `closedPnl` 3 is folded into the emitted trade's PnL (8 = 3 + 5)
and, being the first fill, it even fixes the cycle's direction as
`short` although the position that follows is long. -/
theorem zero_size_fill_not_rejected :
    processCompletedTrades c3Fills =
      [{ coin := "X", direction := .short, openMs := 100, closeMs := 200,
         durationMs := 100, realizedPnL := 8 }] := by
  norm_num +decide [processCompletedTrades, c3Fills, mkFill, coinsInOrder,
    coinsSeen, sortByTime, List.insertionSort, List.orderedInsert, scanFills,
    stepFill, PosAcc.init, closeEps, tradeLe, localeRoundTripMs, List.filter]

/-- C3 (amended): the reconstructor performs no input validation; a
zero-size fill arriving on a flat accumulator is silently consumed —
no error value exists, nothing is emitted, the position stays flat, and
the fill's `closedPnl` still accumulates — and the scan continues. -/
theorem zero_size_fill_processed (c : String) (a : PosAcc)
    (f : HyperLiquidUserFill) (hsz : f.sz = 0) (hpos : a.positionSize = 0)
    (hopen : a.openTime = none) :
    (stepFill c a f).1.positionSize = 0 ∧
    (stepFill c a f).2 = none ∧
    (stepFill c a f).1.totalPnL = a.totalPnL + f.closedPnl := by
  simp [stepFill, hsz, hpos, hopen]

/-- C3 witness: the amended statement at the concrete zero-size Sell of
`c3Fills` applied to the initial accumulator. -/
theorem zero_size_fill_processed_witness :
    (stepFill "X" PosAcc.init (mkFill "X" 0 .A 0 3)).1.positionSize = 0 ∧
    (stepFill "X" PosAcc.init (mkFill "X" 0 .A 0 3)).2 = none ∧
    (stepFill "X" PosAcc.init (mkFill "X" 0 .A 0 3)).1.totalPnL
      = PosAcc.init.totalPnL + (mkFill "X" 0 .A 0 3).closedPnl :=
  zero_size_fill_processed "X" PosAcc.init (mkFill "X" 0 .A 0 3) rfl rfl rfl

/-- A Buy of size 1 and a Sell of size 1 sharing the same millisecond
timestamp. -/
def c2FillBuy : HyperLiquidUserFill := mkFill "X" 1 .B 0 0

/-- The equal-timestamp Sell paired with `c2FillBuy`. -/
def c2FillSell : HyperLiquidUserFill := mkFill "X" 1 .A 0 0

/-- C2 counterexample: the two orders of the same two-fill multiset —
a Buy and a Sell of equal size sharing one timestamp — are permutations
of each other, yet reconstruct to different outputs (the cycle direction
is taken from whichever fill the stable sort keeps first: `long` in one
order, `short` in the other). -/
theorem permutation_changes_output :
    List.Perm [c2FillBuy, c2FillSell] [c2FillSell, c2FillBuy] ∧
    processCompletedTrades [c2FillBuy, c2FillSell] ≠
      processCompletedTrades [c2FillSell, c2FillBuy] := by
  refine ⟨List.Perm.swap c2FillSell c2FillBuy [], ?_⟩
  norm_num +decide [processCompletedTrades, c2FillBuy, c2FillSell, mkFill,
    coinsInOrder, coinsSeen, sortByTime, List.insertionSort,
    List.orderedInsert, scanFills, stepFill, PosAcc.init, closeEps, tradeLe,
    localeRoundTripMs, List.filter]

/-- C2 (amended): the output is a function of (a) the coins in order of
first appearance and (b) each coin's subsequence of fills in input
order; any permutation preserving these two — in particular any
permutation when per-coin timestamps are distinct and re-sorting is
injective — leaves the output unchanged.  Permutations that swap
equal-timestamp fills of one coin, or the first appearances of two
coins, can change it (see the counterexample). -/
theorem reconstruct_respects_grouping (fs gs : List HyperLiquidUserFill)
    (hcoins : coinsInOrder fs = coinsInOrder gs)
    (hfilter : ∀ c, fs.filter (fun f => f.coin = c)
      = gs.filter (fun f => f.coin = c)) :
    processCompletedTrades fs = processCompletedTrades gs := by
  have hnil : fs.isEmpty = gs.isEmpty := by
    rcases fs with _ | ⟨f, fs⟩ <;> rcases gs with _ | ⟨g, gs⟩ <;>
      first
        | rfl
        | exact absurd hcoins (by simp [coinsInOrder, coinsSeen])
  have hfun : (fun c =>
        (scanFills c PosAcc.init
          (sortByTime (fs.filter fun f => f.coin = c))).2)
      = (fun c =>
        (scanFills c PosAcc.init
          (sortByTime (gs.filter fun f => f.coin = c))).2) := by
    funext c
    rw [hfilter c]
  unfold processCompletedTrades
  rw [hnil, hcoins, hfun]

/-- Three fills on two coins, "Y"'s single fill last. -/
def c2wFs : List HyperLiquidUserFill :=
  [mkFill "X" 1 .B 0 0, mkFill "Y" 1 .B 5 0, mkFill "X" 1 .A 10 2]

/-- The same multiset as `c2wFs` with "Y"'s fill moved to the end:
coin first-appearance order and per-coin fill order are unchanged. -/
def c2wGs : List HyperLiquidUserFill :=
  [mkFill "X" 1 .B 0 0, mkFill "X" 1 .A 10 2, mkFill "Y" 1 .B 5 0]

/-- C2 witness: the amended invariance applied to the concrete
permutation pair `c2wFs`, `c2wGs`. -/
theorem reconstruct_respects_grouping_witness :
    processCompletedTrades c2wFs = processCompletedTrades c2wGs := by
  apply reconstruct_respects_grouping
  · rfl
  · intro c
    by_cases hx : ("X" : String) = c <;> by_cases hy : ("Y" : String) = c
    · exact absurd (hx.trans hy.symm) (by decide)
    · simp [c2wFs, c2wGs, mkFill, List.filter, ← hx, hy]
    · simp [c2wFs, c2wGs, mkFill, List.filter, hx, ← hy]
    · simp [c2wFs, c2wGs, mkFill, List.filter, hx, hy]

/-- Two complete round trips on "X" both opening inside the first
wall-clock second (opens at 0 ms and at 200 ms). -/
def c4Fills : List HyperLiquidUserFill :=
  [mkFill "X" 1 .B 0 0, mkFill "X" 1 .A 100 2,
   mkFill "X" 1 .B 200 0, mkFill "X" 1 .A 300 3]

/-- C4 counterexample: both round trips of `c4Fills` open within the
same second, so the final sort — whose key is the opening time
round-tripped through a locale date string, hence truncated to whole
seconds — compares them equal and leaves them in emission order: the
returned opening times are `[0, 200]`, not descending by opening
timestamp (the trade opened at 200 should come first). -/
theorem trades_not_sorted_by_exact_open_time :
    (processCompletedTrades c4Fills).map (·.openMs) = [0, 200] ∧
    ¬ List.Sorted (fun a b => b.openMs ≤ a.openMs)
        (processCompletedTrades c4Fills) := by
  have h : processCompletedTrades c4Fills =
      [{ coin := "X", direction := .long, openMs := 0, closeMs := 100,
         durationMs := 100, realizedPnL := 2 },
       { coin := "X", direction := .long, openMs := 200, closeMs := 300,
         durationMs := 100, realizedPnL := 3 }] := by
    norm_num +decide [processCompletedTrades, c4Fills, mkFill, coinsInOrder,
      coinsSeen, sortByTime, List.insertionSort, List.orderedInsert,
      scanFills, stepFill, PosAcc.init, closeEps, tradeLe, localeRoundTripMs,
      List.filter]
  rw [h]
  exact ⟨rfl, by decide⟩

/-- C4 (amended): the returned trades are sorted descending by the
opening timestamp truncated to whole seconds (the key obtained by
round-tripping the opening time through a locale date string); trades
opened within the same second keep their emission order. -/
theorem trades_sorted_by_truncated_open_time
    (fills : List HyperLiquidUserFill) :
    List.Sorted tradeLe (processCompletedTrades fills) := by
  unfold processCompletedTrades
  split
  · exact List.sorted_nil
  · exact List.sorted_insertionSort tradeLe _

/-- The fields of a fill that the reconstructor actually reads:
`coin`, `sz`, `side`, `time`, `closedPnl`. -/
structure CoreFill where
  coin : String
  sz : ℚ
  side : USide
  time : ℕ
  closedPnl : ℚ
deriving DecidableEq, Repr

/-- Projection of a fill onto its reconstruction-relevant fields. -/
def toCore (f : HyperLiquidUserFill) : CoreFill :=
  ⟨f.coin, f.sz, f.side, f.time, f.closedPnl⟩

theorem coins_map_toCore (l : List HyperLiquidUserFill) :
    (l.map toCore).map (·.coin) = l.map (·.coin) := by
  rw [List.map_map]
  rfl

theorem filter_coin_map_toCore (c : String) (l : List HyperLiquidUserFill) :
    (l.filter fun f => f.coin = c).map toCore =
      (l.map toCore).filter (fun f => f.coin = c) := by
  induction l with
  | nil => rfl
  | cons f l ih =>
    by_cases h : f.coin = c
    · simpa [List.filter_cons, h, toCore] using ih
    · simpa [List.filter_cons, h, toCore] using ih

theorem orderedInsert_map_toCore (f : HyperLiquidUserFill)
    (l : List HyperLiquidUserFill) :
    (List.orderedInsert (fun f g => f.time ≤ g.time) f l).map toCore =
      List.orderedInsert (fun f g : CoreFill => f.time ≤ g.time) (toCore f)
        (l.map toCore) := by
  induction l with
  | nil => rfl
  | cons g l ih =>
    simp only [List.orderedInsert, List.map_cons]
    by_cases h : f.time ≤ g.time
    · rw [if_pos h, if_pos (show (toCore f).time ≤ (toCore g).time from h),
        List.map_cons, List.map_cons]
    · rw [if_neg h, if_neg (show ¬(toCore f).time ≤ (toCore g).time from h),
        List.map_cons, ih]

theorem sortByTime_map_toCore (l : List HyperLiquidUserFill) :
    (sortByTime l).map toCore =
      List.insertionSort (fun f g : CoreFill => f.time ≤ g.time)
        (l.map toCore) := by
  induction l with
  | nil => rfl
  | cons f l ih =>
    simp only [sortByTime, List.insertionSort, List.map_cons] at ih ⊢
    rw [orderedInsert_map_toCore, ih]

theorem stepFill_congr (c : String) (a : PosAcc)
    (f g : HyperLiquidUserFill) (h : toCore f = toCore g) :
    stepFill c a f = stepFill c a g := by
  have h1 : f.side = g.side := congrArg CoreFill.side h
  have h2 : f.sz = g.sz := congrArg CoreFill.sz h
  have h3 : f.time = g.time := congrArg CoreFill.time h
  have h4 : f.closedPnl = g.closedPnl := congrArg CoreFill.closedPnl h
  simp only [stepFill, h1, h2, h3, h4]

theorem scanFills_congr (c : String) (a : PosAcc)
    (l1 l2 : List HyperLiquidUserFill)
    (h : l1.map toCore = l2.map toCore) :
    scanFills c a l1 = scanFills c a l2 := by
  induction l1 generalizing a l2 with
  | nil =>
    cases l2 with
    | nil => rfl
    | cons g l2 => simp at h
  | cons f l1 ih =>
    cases l2 with
    | nil => simp at h
    | cons g l2 =>
      simp only [List.map_cons, List.cons.injEq] at h
      simp only [scanFills, stepFill_congr c a f g h.1]
      rcases hs : stepFill c a g with ⟨a1, em⟩
      rw [ih a1 l2 h.2]

/-- C10: the reconstructor's output depends only on the fields `coin`,
`sz`, `side`, `time` and `closedPnl` of the input fills — two inputs of
equal length agreeing pairwise on those fields (i.e. with equal
`toCore` images) produce identical outputs, whatever their `px`, `fee`,
`oid`, `hash`, `dir`, `crossed` and `startPosition` fields are. -/
theorem output_ignores_irrelevant_fields (fs gs : List HyperLiquidUserFill)
    (h : fs.map toCore = gs.map toCore) :
    processCompletedTrades fs = processCompletedTrades gs := by
  have hnil : fs.isEmpty = gs.isEmpty := by
    rcases fs with _ | ⟨f, fs⟩ <;> rcases gs with _ | ⟨g, gs⟩ <;>
      first
        | rfl
        | simp at h
  have hcoins : coinsInOrder fs = coinsInOrder gs := by
    unfold coinsInOrder
    rw [← coins_map_toCore fs, ← coins_map_toCore gs, h]
  have hfun : (fun c =>
        (scanFills c PosAcc.init
          (sortByTime (fs.filter fun f => f.coin = c))).2)
      = (fun c =>
        (scanFills c PosAcc.init
          (sortByTime (gs.filter fun f => f.coin = c))).2) := by
    funext c
    have hf : (fs.filter fun f => f.coin = c).map toCore
        = (gs.filter fun f => f.coin = c).map toCore := by
      rw [filter_coin_map_toCore, filter_coin_map_toCore, h]
    have hs : (sortByTime (fs.filter fun f => f.coin = c)).map toCore
        = (sortByTime (gs.filter fun f => f.coin = c)).map toCore := by
      rw [sortByTime_map_toCore, sortByTime_map_toCore, hf]
    rw [scanFills_congr c PosAcc.init _ _ hs]
  unfold processCompletedTrades
  rw [hnil, hcoins, hfun]

/-- A round trip whose fills carry one set of irrelevant field values. -/
def c10Fs : List HyperLiquidUserFill :=
  [⟨"X", "10.5", 1, .B, 0, "0.0", "Open Long", 0, "0xaa", 1, true, "0.1"⟩,
   ⟨"X", "11.5", 1, .A, 1000, "1.0", "Close Long", 5, "0xbb", 2, false,
     "0.2"⟩]

/-- The same fills as `c10Fs` with every irrelevant field (`px`,
`startPosition`, `dir`, `hash`, `oid`, `crossed`, `fee`) changed. -/
def c10Gs : List HyperLiquidUserFill :=
  [⟨"X", "99.9", 1, .B, 0, "7.0", "Open Short", 0, "0xcc", 9, false, "9.9"⟩,
   ⟨"X", "88.8", 1, .A, 1000, "8.0", "Close Short", 5, "0xdd", 8, true,
     "8.8"⟩]

/-- C10 witness: the two concrete inputs differing only in irrelevant
fields reconstruct to the same output. -/
theorem output_ignores_irrelevant_fields_witness :
    processCompletedTrades c10Fs = processCompletedTrades c10Gs :=
  output_ignores_irrelevant_fields c10Fs c10Gs rfl

end HL
